import Mathlib

/-!
Shallow embedding of the mlcpp core (Dataset partitioning/rescaling and the
KNN classifier, with the distance metrics of Distance.h), together with
theorems settling the specification claims.

Conventions of the embedding:
* C++ `double` values are modelled as exact rationals (`ℚ`) for the dataset
  and classifier code, whose claims are arithmetic-exact, and as reals (`ℝ`)
  where the source applies `sqrt`/`pow` (the distance metrics and
  `standardize`).  Division by zero is total (`x / 0 = 0`); where the C++
  code would produce `NaN` the guards in question (`> 0.0`) fail in both
  semantics, which is noted at each use.
* C++ `std::vector` is `List`, `std::pair` is `Prod`; out-of-range reads,
  which are undefined behaviour in the source, are totalised with `List.getD`.
* `throw std::invalid_argument(msg)` is `Except.error msg`.
* `std::mt19937` + `std::shuffle` (external library collaborators of
  `Dataset::train_test_split`) are modelled by `lcg`/`shuffleAux`, a seeded
  Fisher–Yates-style selection shuffle: the claims about the split depend
  only on the shuffle being a deterministic, seed-indexed permutation.
-/

namespace mlcpp

/-- The `Dataset` class of `Dataset.h`: `features_` (rows of doubles) and
`labels_` (ints), index-aligned. -/
structure Dataset where
  features : List (List ℚ)
  labels : List Int
deriving DecidableEq, Repr

/-- The rectangularity invariant of the data model: every row has the width
of row 0 (`num_features()` in the source). -/
def numFeatures (fs : List (List ℚ)) : Nat := (fs.headD []).length

/-- Every row has identical width (the Sample Table invariant). -/
def Rectangular (fs : List (List ℚ)) : Prop := ∀ r ∈ fs, r.length = numFeatures fs

instance (fs : List (List ℚ)) : Decidable (Rectangular fs) :=
  List.decidableBAll _ fs

/-- Deterministic step of the pseudo-random generator used to model
`std::mt19937 generator(seed)` (a linear-congruential step on 64 bits; the
claims depend only on determinism, not on the bit stream). -/
def lcg (s : Nat) : Nat := (6364136223846793005 * s + 1442695040888963407) % (2 ^ 64)

/-- Model of `std::shuffle(indexes.begin(), indexes.end(), generator)`:
repeatedly pick the next element at a generator-chosen position and recurse
on the remainder — a seed-indexed permutation of the input list. -/
def shuffleAux {α : Type} (g : Nat) (l : List α) : List α :=
  match l with
  | [] => []
  | x :: xs =>
    let j := g % (x :: xs).length
    have hj : j < (x :: xs).length := Nat.mod_lt _ (Nat.succ_pos _)
    (x :: xs).get ⟨j, hj⟩ :: shuffleAux (lcg g) ((x :: xs).eraseIdx j)
termination_by l.length
decreasing_by
  have hm : g % (xs.length + 1) < xs.length + 1 := Nat.mod_lt _ (Nat.succ_pos _)
  simp [List.length_eraseIdx, hm]

/-- `Dataset::train_test_split(test_ratio, seed)` (Dataset.cpp, lines 96-136).
`static_cast<size_t>(total_size * test_ratio)` truncates a non-negative
product, i.e. takes the floor. -/
def train_test_split (d : Dataset) (test_ratio : ℚ) (seed : Nat) :
    Except String (Dataset × Dataset) :=
  if test_ratio ≤ 0 ∨ 1 ≤ test_ratio then
    Except.error "test_ratio must be between 0 and 1."
  else
    let total_size := d.features.length
    let test_size : Nat := (⌊(total_size : ℚ) * test_ratio⌋).toNat
    let train_size := total_size - test_size
    let indexes := shuffleAux seed (List.range total_size)
    let train_features := (indexes.take train_size).map (fun i => d.features.getD i [])
    let train_labels := (indexes.take train_size).map (fun i => d.labels.getD i 0)
    let test_features := (indexes.drop train_size).map (fun i => d.features.getD i [])
    let test_labels := (indexes.drop train_size).map (fun i => d.labels.getD i 0)
    Except.ok (⟨train_features, train_labels⟩, ⟨test_features, test_labels⟩)

/-- The values of column `c` (the source reads `features_[row][col]` for every
row; the out-of-range read on a non-rectangular table is totalised to `0`). -/
def colVals (fs : List (List ℚ)) (c : Nat) : List ℚ := fs.map (fun r => r.getD c 0)

/-- `min_val`: initialised to `features_[0][col]` and folded over all rows
(Dataset.cpp, lines 150-161). -/
def colMin (fs : List (List ℚ)) (c : Nat) : ℚ :=
  (colVals fs c).foldl min ((fs.headD []).getD c 0)

/-- `max_val`, same loop as `colMin`. -/
def colMax (fs : List (List ℚ)) (c : Nat) : ℚ :=
  (colVals fs c).foldl max ((fs.headD []).getD c 0)

/-- The per-entry rewrite of `Dataset::normalize` for column `c`:
`(x - min) / range` when `range > 0`, unchanged otherwise (the local
`range = max_val - min_val` is inlined; Dataset.cpp, lines 163-172). -/
def normEntry (fs : List (List ℚ)) (c : Nat) (x : ℚ) : ℚ :=
  if colMax fs c - colMin fs c > 0 then
    (x - colMin fs c) / (colMax fs c - colMin fs c)
  else x

/-- `Dataset::normalize` on the feature matrix (Dataset.cpp, lines 139-174):
early return on empty data, then every column `col < num_features` is
rewritten by `normEntry`. -/
def normalizeFeatures (fs : List (List ℚ)) : List (List ℚ) :=
  if fs = [] then fs
  else fs.map (fun row => row.enum.map (fun e =>
    if e.1 < numFeatures fs then normEntry fs e.1 e.2 else e.2))

/-- `Dataset::normalize` as a method: it mutates `features_` in place and
never touches `labels_`. -/
def normalize (d : Dataset) : Dataset :=
  { d with features := normalizeFeatures d.features }

/-- The `KNN` classifier state (KNN.h): `k_`, the bound `distance_` metric,
and the training data captured by `fit`.  The embedding keeps the classifier
parametric in the metric, as the source binds an arbitrary `DistanceMetric`;
it is `ℚ`-valued here so that concrete runs are decidable. -/
structure KNN where
  k_ : Nat
  distance_ : List ℚ → List ℚ → ℚ
  X_train_ : List (List ℚ)
  y_train_ : List Int

/-- `KNN::fit` (KNN.cpp, lines 20-23): stores the dataset's features and
labels, replacing any previous training data. -/
def fit (m : KNN) (dataset : Dataset) : KNN :=
  { m with X_train_ := dataset.features, y_train_ := dataset.labels }

/-- The strict-weak-order `std::pair` comparison used by `partial_sort` on
`(distance, index)` pairs: lexicographic, so equal distances are ordered by
the original training index (first-seen index wins). -/
def pairLe (p q : ℚ × Nat) : Prop := p.1 < q.1 ∨ (p.1 = q.1 ∧ p.2 ≤ q.2)

instance : DecidableRel pairLe := fun p q => by
  unfold pairLe; infer_instance

/-- `KNN::find_k_nearest` (KNN.cpp, lines 71-87): distances to every training
row are paired with their index, the pairs are sorted ascending (modelling the
effect of `partial_sort` on the selected head of the vector), and the source's
copy loop `for (i = 0; i < k_ - 1; i++)` keeps the first `k_ - 1` indices. -/
def find_k_nearest (m : KNN) (sample : List ℚ) : List Nat :=
  let distances := (List.range m.X_train_.length).map
    (fun i => (m.distance_ sample (m.X_train_.getD i []), i))
  let sorted := List.insertionSort pairLe distances
  (sorted.take (m.k_ - 1)).map Prod.snd

/-- `KNN::majority_vote` (KNN.cpp, lines 90-108): counts each neighbour label
in a `std::map` and scans the counts in increasing key order, keeping the
first strictly larger count; `max`/`best_label` start at `0`.  The map key is
`size_t`, whose order agrees with the `Int` order on the non-negative labels
considered here. -/
def majority_vote (m : KNN) (neighbor_indices : List Nat) : Int :=
  let labels := neighbor_indices.map (fun i => m.y_train_.getD i 0)
  let keys := List.insertionSort (fun a b : Int => a ≤ b) labels.dedup
  (keys.foldl (fun acc label =>
    let count := labels.count label
    if count > acc.1 then (count, label) else acc) ((0 : Nat), (0 : Int))).2

/-- `KNN::predict` on a single sample (KNN.cpp, lines 27-30). -/
def predict (m : KNN) (sample : List ℚ) : Int :=
  majority_vote m (find_k_nearest m sample)

/-- `KNN::predict` on a batch (KNN.cpp, lines 34-42): independent
single-sample prediction in input order. -/
def predictBatch (m : KNN) (samples : List (List ℚ)) : List Int :=
  samples.map (fun s => predict m s)

/-- `KNN::score` (KNN.cpp, lines 46-68), exactly as written: it returns `0.0`
on an empty test table, computes `y_pred` by batch prediction, but then counts
the positions where `y_train_[i] == y_test[i]`. -/
def score (m : KNN) (test_dataset : Dataset) : ℚ :=
  let X_test := test_dataset.features
  let y_test := test_dataset.labels
  if y_test.isEmpty ∨ X_test.isEmpty then 0
  else
    let y_pred := predictBatch m X_test
    let correct := ((List.range y_test.length).filter
      (fun i => m.y_train_.getD i 0 = y_test.getD i 0)).length
    (correct : ℚ) / (y_test.length : ℚ)

/-- The quantity the specification says `score` returns: the fraction of
positions at which the batch prediction agrees with the test labels.  (Spec
side of claim C1, for comparison with `score`.) -/
def claimedAccuracy (m : KNN) (test_dataset : Dataset) : ℚ :=
  let preds := predictBatch m test_dataset.features
  (((List.range test_dataset.labels.length).filter
      (fun i => preds.getD i 0 = test_dataset.labels.getD i 0)).length : ℚ) /
    (test_dataset.labels.length : ℚ)

/-- `ℚ`-valued counterpart of `manhattan_distance`, used to instantiate the
classifier's `distance_` field in concrete evaluations. -/
def manhattanQ (a b : List ℚ) : ℚ :=
  ((List.range a.length).map (fun i => |a.getD i 0 - b.getD i 0|)).sum

/-- `euclidean_distance` (Distance.h, lines 46-53): the loop accumulates
`diff * diff` over `i < a.size()` and applies `sqrt`. -/
noncomputable def euclidean_distance (a b : List ℝ) : ℝ :=
  Real.sqrt (((List.range a.length).map
    (fun i => (a.getD i 0 - b.getD i 0) * (a.getD i 0 - b.getD i 0))).sum)

/-- `manhattan_distance` (Distance.h, lines 80-86). -/
noncomputable def manhattan_distance (a b : List ℝ) : ℝ :=
  ((List.range a.length).map (fun i => |a.getD i 0 - b.getD i 0|)).sum

/-- `chebyshev_distance` (Distance.h, lines 112-121): `max_diff` starts at
`0.0` and is replaced whenever `|a_i - b_i|` exceeds it (the local `diff`
variable is inlined). -/
noncomputable def chebyshev_distance (a b : List ℝ) : ℝ :=
  (List.range a.length).foldl
    (fun max_diff i =>
      if |a.getD i 0 - b.getD i 0| > max_diff then |a.getD i 0 - b.getD i 0|
      else max_diff) 0

/-- `minkowski_distance` (Distance.h, lines 154-160): `pow(|a_i - b_i|, p)`
summed, then `pow(sum, 1/p)`; real powers model `std::pow` on the
non-negative bases that occur. -/
noncomputable def minkowski_distance (a b : List ℝ) (p : ℝ) : ℝ :=
  (((List.range a.length).map (fun i => |a.getD i 0 - b.getD i 0| ^ p)).sum) ^ (1 / p)

/-- Column values for the real-valued feature matrix used by `standardize`. -/
def colValsR (fs : List (List ℝ)) (c : Nat) : List ℝ := fs.map (fun r => r.getD c 0)

/-- `mean` of a column in `Dataset::standardize` (Dataset.cpp, lines 186-191):
the running total divided by `num_samples`. -/
noncomputable def colMean (fs : List (List ℝ)) (c : Nat) : ℝ :=
  (colValsR fs c).sum / (fs.length : ℝ)

/-- `variance_sum` of a column (Dataset.cpp, lines 193-198). -/
noncomputable def colVarianceSum (fs : List (List ℝ)) (c : Nat) : ℝ :=
  ((colValsR fs c).map (fun x => (x - colMean fs c) * (x - colMean fs c))).sum

/-- `std_dev = sqrt(variance_sum / (num_samples - 1))` (Dataset.cpp, line 200).
`num_samples - 1` is `size_t` subtraction; for one sample it is `0` and the
division is by zero — `NaN` in C++, `0` in this model — and in both semantics
the `std_dev > 0.0` guard then fails. -/
noncomputable def stdDev (fs : List (List ℝ)) (c : Nat) : ℝ :=
  Real.sqrt (colVarianceSum fs c / ((fs.length - 1 : Nat) : ℝ))

/-- `Dataset::standardize` on the feature matrix (Dataset.cpp, lines 176-211):
early return on empty data; each column `col < num_features` is rewritten to
`(x - mean) / std_dev` only when `std_dev > 0.0`. -/
noncomputable def standardizeFeatures (fs : List (List ℝ)) : List (List ℝ) :=
  if fs = [] then fs
  else fs.map (fun row => row.enum.map (fun e =>
    if e.1 < (fs.headD []).length then
      if stdDev fs e.1 > 0 then (e.2 - colMean fs e.1) / stdDev fs e.1 else e.2
    else e.2))

/-! ## Helper lemmas -/

/-- The shuffle model produces a permutation of its input (auxiliary form,
by strong induction on the length). -/
theorem shuffleAux_perm_aux {α : Type} :
    ∀ (n g : Nat) (l : List α), l.length = n → (shuffleAux g l).Perm l := by
  intro n
  induction n using Nat.strong_induction_on with
  | _ n ih =>
    intro g l hn
    cases l with
    | nil => simp [shuffleAux]
    | cons x xs =>
      rw [shuffleAux]
      have hj : g % (x :: xs).length < (x :: xs).length :=
        Nat.mod_lt _ (Nat.succ_pos _)
      have h1 : (shuffleAux (lcg g) ((x :: xs).eraseIdx (g % (x :: xs).length))).Perm
          ((x :: xs).eraseIdx (g % (x :: xs).length)) := by
        apply ih ((x :: xs).eraseIdx (g % (x :: xs).length)).length _ _ _ rfl
        rw [List.length_eraseIdx, if_pos hj, ← hn]
        exact Nat.sub_lt (by simp) (by norm_num)
      have h2 : ((x :: xs).get ⟨g % (x :: xs).length, hj⟩ ::
          (x :: xs).eraseIdx (g % (x :: xs).length)).Perm (x :: xs) := by
        conv_rhs => rw [← List.take_append_drop (g % (x :: xs).length) (x :: xs),
          ← List.getElem_cons_drop (x :: xs) (g % (x :: xs).length) hj]
        rw [List.eraseIdx_eq_take_drop_succ]
        simpa using List.perm_middle.symm
      exact (h1.cons _).trans h2

/-- The shuffle model produces a permutation of its input. -/
theorem shuffleAux_perm {α : Type} (g : Nat) (l : List α) :
    (shuffleAux g l).Perm l :=
  shuffleAux_perm_aux l.length g l rfl

/-! ## Claim theorems -/

/-- C4: for every table and every seed, `train_test_split` with
`test_ratio <= 0` or `test_ratio >= 1` fails with the InvalidArgument
condition (`std::invalid_argument`) and produces no partition; the method is
`const`, so the source table is unchanged (the embedding is pure). -/
theorem C4_split_invalid_ratio (d : Dataset) (r : ℚ) (s : Nat)
    (h : r ≤ 0 ∨ 1 ≤ r) :
    train_test_split d r s = Except.error "test_ratio must be between 0 and 1." := by
  rw [train_test_split, if_pos h]

/-- Witness for C4 at `test_ratio = 0` on a concrete two-row table. -/
theorem C4_split_invalid_ratio_witness :
    ((0 : ℚ) ≤ 0 ∨ (1 : ℚ) ≤ 0) ∧
      train_test_split ⟨[[1], [2]], [0, 1]⟩ 0 41 =
        Except.error "test_ratio must be between 0 and 1." :=
  ⟨Or.inl le_rfl, C4_split_invalid_ratio ⟨[[1], [2]], [0, 1]⟩ 0 41 (Or.inl le_rfl)⟩

/-- C6: `train_test_split` is a deterministic function of the table contents,
the ratio and the seed — two calls with the same arguments give identical
train and test tables (the generator is constructed locally from `seed`, so
the embedding carries no hidden state). -/
theorem C6_split_deterministic (d₁ d₂ : Dataset) (r : ℚ) (s : Nat)
    (hf : d₁.features = d₂.features) (hl : d₁.labels = d₂.labels) :
    train_test_split d₁ r s = train_test_split d₂ r s := by
  cases d₁
  cases d₂
  cases hf
  cases hl
  rfl

/-- Witness for C6 on a concrete four-row table. -/
theorem C6_split_deterministic_witness :
    train_test_split ⟨[[1], [2], [3], [4]], [0, 1, 0, 1]⟩ (1 / 2) 41 =
      train_test_split ⟨[[1], [2], [3], [4]], [0, 1, 0, 1]⟩ (1 / 2) 41 :=
  C6_split_deterministic ⟨[[1], [2], [3], [4]], [0, 1, 0, 1]⟩
    ⟨[[1], [2], [3], [4]], [0, 1, 0, 1]⟩ (1 / 2) 41 rfl rfl

/-- C3 (code bug): `KNN.cpp` contains no validation and no throw at all.
Predicting with an empty training set returns the ordinary label `0` for any
`k`, any metric and any query instead of failing with an InvalidState
condition, and requesting `k = 2` with a single stored training row returns
that row's label instead of failing with an InvalidArgument condition (in the
source both cases run `partial_sort` with an out-of-range middle iterator,
which is undefined behaviour, not a reported error; the embedding totalises
the selection). -/
theorem C3_predict_never_fails :
    (∀ (k : Nat) (dist : List ℚ → List ℚ → ℚ) (sample : List ℚ),
        predict ⟨k, dist, [], []⟩ sample = 0) ∧
      predict ⟨2, manhattanQ, [[0]], [5]⟩ [0] = 5 := by
  constructor
  · intro k dist sample
    unfold predict find_k_nearest majority_vote
    simp [List.insertionSort]
  · decide

/-- C2 (code bug): the copy loop of `find_k_nearest` runs `i < k_ - 1`, so
only `k - 1` neighbours are kept.  With `k = 1` and a query coincident with
the single training row (label `7`), the neighbour list is empty and
`majority_vote` returns its default `0`, not the row's label. -/
theorem C2_predict_with_k1_returns_default :
    predict ⟨1, manhattanQ, [[0]], [7]⟩ [0] = 0 ∧ (0 : Int) ≠ 7 := by
  constructor
  · decide
  · decide

/-- C1 (code bug): `score` counts positions where `y_train_[i] == y_test[i]`,
ignoring the computed predictions.  On a one-row training table with label
`5`, `k = 1`, and the coincident one-row test table with label `5`, `score`
returns `1` while the fraction of positions at which the batch prediction
agrees with the test labels is `0`. -/
theorem C1_score_compares_training_labels :
    score ⟨1, manhattanQ, [[0]], [5]⟩ ⟨[[0]], [5]⟩ = 1 ∧
      claimedAccuracy ⟨1, manhattanQ, [[0]], [5]⟩ ⟨[[0]], [5]⟩ = 0 ∧
      (1 : ℚ) ≠ 0 := by
  refine ⟨?_, ?_, by norm_num⟩
  · norm_num [score, predictBatch, predict, find_k_nearest, majority_vote, manhattanQ,
      List.insertionSort, List.orderedInsert]
  · norm_num [claimedAccuracy, predictBatch, predict, find_k_nearest, majority_vote,
      manhattanQ, List.insertionSort, List.orderedInsert]

/-- C10: on a table with exactly one row, `standardize` computes
`std_dev = sqrt(variance_sum / (num_samples - 1))` with `num_samples - 1 = 0`
(a division by zero — `NaN` in IEEE arithmetic, `0` in this model; the
`std_dev > 0.0` guard fails in both), so the rewrite branch is skipped and
every feature value is left unchanged. -/
theorem C10_standardize_single_row (row : List ℝ) :
    (∀ c : Nat, ¬ 0 < stdDev [row] c) ∧ standardizeFeatures [row] = [row] := by
  have hstd : ∀ c, stdDev [row] c = 0 := by
    intro c
    unfold stdDev
    norm_num
  refine ⟨fun c => by rw [hstd c]; norm_num, ?_⟩
  unfold standardizeFeatures
  simp [hstd, List.enum_map_snd]

/-- The branch of the `chebyshev_distance` loop is a `max`. -/
theorem chebyStep_eq_max (h : Nat → ℝ) (l : List Nat) (a : ℝ) :
    l.foldl (fun m i => if h i > m then h i else m) a =
      l.foldl (fun m i => max m (h i)) a := by
  induction l generalizing a with
  | nil => rfl
  | cons x xs ih =>
    simp only [List.foldl_cons]
    rw [← ih]
    congr 1
    rcases lt_or_le a (h x) with hlt | hle
    · rw [if_pos hlt, max_eq_right hlt.le]
    · rw [if_neg (not_lt.mpr hle), max_eq_left hle]

/-- A running maximum never drops below its initial value. -/
theorem foldl_max_init_le (h : Nat → ℝ) (l : List Nat) (a : ℝ) :
    a ≤ l.foldl (fun m i => max m (h i)) a := by
  induction l generalizing a with
  | nil => exact le_rfl
  | cons x xs ih => exact le_trans (le_max_left _ _) (ih _)

/-- A running maximum over values no larger than its initial value stays at
the initial value. -/
theorem foldl_max_const (h : Nat → ℝ) (l : List Nat) (a : ℝ)
    (hle : ∀ i ∈ l, h i ≤ a) : l.foldl (fun m i => max m (h i)) a = a := by
  induction l generalizing a with
  | nil => rfl
  | cons x xs ih =>
    simp only [List.foldl_cons]
    rw [max_eq_left (hle x (List.mem_cons_self x xs))]
    exact ih _ (fun i hi => hle i (List.mem_cons_of_mem _ hi))

/-- C9: each provided metric (Euclidean, Manhattan, Chebyshev, Minkowski with
`p >= 1`) is non-negative, has zero self-distance, and is symmetric on
equal-length vectors. -/
theorem C9_metric_properties (a b : List ℝ) (p : ℝ)
    (hlen : a.length = b.length) (hp : 1 ≤ p) :
    (0 ≤ euclidean_distance a b ∧ euclidean_distance a a = 0 ∧
      euclidean_distance a b = euclidean_distance b a) ∧
    (0 ≤ manhattan_distance a b ∧ manhattan_distance a a = 0 ∧
      manhattan_distance a b = manhattan_distance b a) ∧
    (0 ≤ chebyshev_distance a b ∧ chebyshev_distance a a = 0 ∧
      chebyshev_distance a b = chebyshev_distance b a) ∧
    (0 ≤ minkowski_distance a b p ∧ minkowski_distance a a p = 0 ∧
      minkowski_distance a b p = minkowski_distance b a p) := by
  have hp0 : p ≠ 0 := (lt_of_lt_of_le zero_lt_one hp).ne'
  refine ⟨⟨Real.sqrt_nonneg _, ?_, ?_⟩, ⟨?_, ?_, ?_⟩, ⟨?_, ?_, ?_⟩, ⟨?_, ?_, ?_⟩⟩
  · simp [euclidean_distance]
  · unfold euclidean_distance
    rw [hlen]
    congr 1
    congr 1
    apply List.map_congr_left
    intro i _
    ring
  · apply List.sum_nonneg
    intro x hx
    rcases List.mem_map.mp hx with ⟨i, _, rfl⟩
    exact abs_nonneg _
  · simp [manhattan_distance]
  · unfold manhattan_distance
    rw [hlen]
    congr 1
    apply List.map_congr_left
    intro i _
    rw [abs_sub_comm]
  · unfold chebyshev_distance
    rw [chebyStep_eq_max (fun i => |a.getD i 0 - b.getD i 0|)]
    exact foldl_max_init_le _ _ _
  · unfold chebyshev_distance
    rw [chebyStep_eq_max (fun i => |a.getD i 0 - a.getD i 0|)]
    apply foldl_max_const
    intro i _
    simp
  · unfold chebyshev_distance
    rw [hlen]
    congr 1
    funext m i
    rw [abs_sub_comm]
  · apply Real.rpow_nonneg
    apply List.sum_nonneg
    intro x hx
    rcases List.mem_map.mp hx with ⟨i, _, rfl⟩
    exact Real.rpow_nonneg (abs_nonneg _) _
  · unfold minkowski_distance
    have hsum : ((List.range a.length).map
        (fun i => |a.getD i 0 - a.getD i 0| ^ p)).sum = 0 := by
      apply List.sum_eq_zero
      intro x hx
      rcases List.mem_map.mp hx with ⟨i, _, rfl⟩
      simp [Real.zero_rpow hp0]
    rw [hsum, Real.zero_rpow (one_div_ne_zero hp0)]
  · unfold minkowski_distance
    rw [hlen]
    congr 1
    congr 1
    apply List.map_congr_left
    intro i _
    rw [abs_sub_comm]

/-- Witness for C9 at `a = [1, 2]`, `b = [3, 5]`, `p = 2`. -/
theorem C9_metric_properties_witness :
    (([1, 2] : List ℝ).length = ([3, 5] : List ℝ).length ∧ (1 : ℝ) ≤ 2) ∧
      ((0 ≤ euclidean_distance [1, 2] [3, 5] ∧ euclidean_distance [1, 2] [1, 2] = 0 ∧
        euclidean_distance [1, 2] [3, 5] = euclidean_distance [3, 5] [1, 2]) ∧
      (0 ≤ manhattan_distance [1, 2] [3, 5] ∧ manhattan_distance [1, 2] [1, 2] = 0 ∧
        manhattan_distance [1, 2] [3, 5] = manhattan_distance [3, 5] [1, 2]) ∧
      (0 ≤ chebyshev_distance [1, 2] [3, 5] ∧ chebyshev_distance [1, 2] [1, 2] = 0 ∧
        chebyshev_distance [1, 2] [3, 5] = chebyshev_distance [3, 5] [1, 2]) ∧
      (0 ≤ minkowski_distance [1, 2] [3, 5] 2 ∧ minkowski_distance [1, 2] [1, 2] 2 = 0 ∧
        minkowski_distance [1, 2] [3, 5] 2 = minkowski_distance [3, 5] [1, 2] 2)) :=
  ⟨⟨rfl, by norm_num⟩, C9_metric_properties [1, 2] [3, 5] 2 rfl (by norm_num)⟩

/-- Reading every index of `[0, n)` out of an aligned pair of lists of
length `n` reproduces their zip. -/
theorem map_getD_range_zip (fs : List (List ℚ)) (ls : List Int)
    (h : ls.length = fs.length) :
    (List.range fs.length).map (fun i => (fs.getD i [], ls.getD i 0)) =
      fs.zip ls := by
  apply List.ext_getElem
  · simp [h]
  · intro n h1 h2
    simp only [List.getElem_map, List.getElem_range, List.getElem_zip]
    have hn : n < fs.length := by simpa using h1
    rw [List.getD_eq_getElem fs [] hn, List.getD_eq_getElem ls 0 (by omega)]

/-- C5: for a table with aligned labels and `0 < test_ratio < 1`, the split
succeeds with `test_size = floor(n * test_ratio)` held-out rows and
`train_size = n - test_size` training rows, every output keeps its labels
aligned, and the (feature-row, label) pairs of the two outputs together are a
permutation of the pairs of the original table. -/
theorem C5_split_partition (d : Dataset) (r : ℚ) (s : Nat)
    (hlen : d.labels.length = d.features.length) (h0 : 0 < r) (h1 : r < 1) :
    ∃ train test, train_test_split d r s = Except.ok (train, test) ∧
      test.features.length = (⌊(d.features.length : ℚ) * r⌋).toNat ∧
      train.features.length = d.features.length - test.features.length ∧
      train.features.length + test.features.length = d.features.length ∧
      train.labels.length = train.features.length ∧
      test.labels.length = test.features.length ∧
      ((train.features.zip train.labels) ++ (test.features.zip test.labels)).Perm
        (d.features.zip d.labels) := by
  have hcond : ¬ (r ≤ 0 ∨ 1 ≤ r) := by
    push_neg
    exact ⟨h0, h1⟩
  have hts : (⌊(d.features.length : ℚ) * r⌋).toNat ≤ d.features.length := by
    rw [Int.toNat_le]
    calc ⌊(d.features.length : ℚ) * r⌋ ≤ ⌊(d.features.length : ℚ)⌋ :=
          Int.floor_le_floor (mul_le_of_le_one_right (Nat.cast_nonneg _) h1.le)
      _ = d.features.length := Int.floor_natCast _
  have hperm : (shuffleAux s (List.range d.features.length)).Perm
      (List.range d.features.length) := shuffleAux_perm _ _
  have hilen : (shuffleAux s (List.range d.features.length)).length =
      d.features.length := by
    rw [hperm.length_eq, List.length_range]
  refine ⟨_, _, by rw [train_test_split, if_neg hcond], ?_, ?_, ?_, ?_, ?_, ?_⟩
  · simp only [List.length_map, List.length_drop, hilen]
    omega
  · simp only [List.length_map, List.length_take, List.length_drop, hilen]
    omega
  · simp only [List.length_map, List.length_take, List.length_drop, hilen]
    omega
  · simp only [List.length_map, List.length_take]
  · simp only [List.length_map, List.length_drop]
  · simp only [List.zip_map']
    rw [← List.map_append, List.take_append_drop]
    exact (hperm.map _).trans (by rw [map_getD_range_zip d.features d.labels hlen])

/-- Witness for C5 on a four-row table with `test_ratio = 1/2`. -/
theorem C5_split_partition_witness :
    (([0, 1, 0, 1] : List Int).length = ([[1], [2], [3], [4]] : List (List ℚ)).length ∧
        (0 : ℚ) < 1 / 2 ∧ (1 : ℚ) / 2 < 1) ∧
      (∃ train test,
        train_test_split ⟨[[1], [2], [3], [4]], [0, 1, 0, 1]⟩ (1 / 2) 41 =
          Except.ok (train, test) ∧
        test.features.length =
          (⌊(([[1], [2], [3], [4]] : List (List ℚ)).length : ℚ) * (1 / 2)⌋).toNat ∧
        train.features.length = ([[1], [2], [3], [4]] : List (List ℚ)).length -
          test.features.length ∧
        train.features.length + test.features.length =
          ([[1], [2], [3], [4]] : List (List ℚ)).length ∧
        train.labels.length = train.features.length ∧
        test.labels.length = test.features.length ∧
        ((train.features.zip train.labels) ++ (test.features.zip test.labels)).Perm
          (([[1], [2], [3], [4]] : List (List ℚ)).zip ([0, 1, 0, 1] : List Int))) :=
  ⟨⟨rfl, by norm_num, by norm_num⟩,
    C5_split_partition ⟨[[1], [2], [3], [4]], [0, 1, 0, 1]⟩ (1 / 2) 41 rfl
      (by norm_num) (by norm_num)⟩

/-- A running minimum never exceeds its initial value. -/
theorem foldl_min_le_init (l : List ℚ) (a : ℚ) : l.foldl min a ≤ a := by
  induction l generalizing a with
  | nil => exact le_rfl
  | cons x xs ih => exact le_trans (ih _) (min_le_left _ _)

/-- A running maximum never drops below its initial value. -/
theorem init_le_foldl_max (l : List ℚ) (a : ℚ) : a ≤ l.foldl max a := by
  induction l generalizing a with
  | nil => exact le_rfl
  | cons x xs ih => exact le_trans (le_max_left _ _) (ih _)

/-- A running minimum is a lower bound for every visited element. -/
theorem foldl_min_le_mem (l : List ℚ) (a x : ℚ) (hx : x ∈ l) :
    l.foldl min a ≤ x := by
  induction l generalizing a with
  | nil => cases hx
  | cons y ys ih =>
    rcases List.mem_cons.mp hx with rfl | hmem
    · exact le_trans (foldl_min_le_init ys (min a x)) (min_le_right _ _)
    · exact ih _ hmem

/-- A running maximum is an upper bound for every visited element. -/
theorem mem_le_foldl_max (l : List ℚ) (a x : ℚ) (hx : x ∈ l) :
    x ≤ l.foldl max a := by
  induction l generalizing a with
  | nil => cases hx
  | cons y ys ih =>
    rcases List.mem_cons.mp hx with rfl | hmem
    · exact le_trans (le_max_right _ _) (init_le_foldl_max ys (max a x))
    · exact ih _ hmem

/-- A function distributing over `min` commutes with a running minimum. -/
theorem foldl_min_map (f : ℚ → ℚ)
    (hf : ∀ x y, f (min x y) = min (f x) (f y)) (l : List ℚ) (a : ℚ) :
    (l.map f).foldl min (f a) = f (l.foldl min a) := by
  induction l generalizing a with
  | nil => rfl
  | cons x xs ih =>
    simp only [List.map_cons, List.foldl_cons]
    rw [← hf, ih]

/-- A function distributing over `max` commutes with a running maximum. -/
theorem foldl_max_map (f : ℚ → ℚ)
    (hf : ∀ x y, f (max x y) = max (f x) (f y)) (l : List ℚ) (a : ℚ) :
    (l.map f).foldl max (f a) = f (l.foldl max a) := by
  induction l generalizing a with
  | nil => rfl
  | cons x xs ih =>
    simp only [List.map_cons, List.foldl_cons]
    rw [← hf, ih]

/-- The column minimum never exceeds the column maximum (both folds share the
initial value `features_[0][col]`). -/
theorem colMin_le_colMax (fs : List (List ℚ)) (c : Nat) :
    colMin fs c ≤ colMax fs c :=
  le_trans (foldl_min_le_init _ _) (init_le_foldl_max _ _)

/-- The column transform of `normalize` is monotone. -/
theorem normEntry_mono (fs : List (List ℚ)) (c : Nat) {x y : ℚ} (h : x ≤ y) :
    normEntry fs c x ≤ normEntry fs c y := by
  unfold normEntry
  split
  · rename_i hr
    gcongr
  · exact h

/-- The column transform of `normalize` distributes over `min`. -/
theorem normEntry_map_min (fs : List (List ℚ)) (c : Nat) (x y : ℚ) :
    normEntry fs c (min x y) = min (normEntry fs c x) (normEntry fs c y) := by
  rcases le_total x y with h | h
  · rw [min_eq_left h, min_eq_left (normEntry_mono fs c h)]
  · rw [min_eq_right h, min_eq_right (normEntry_mono fs c h)]

/-- The column transform of `normalize` distributes over `max`. -/
theorem normEntry_map_max (fs : List (List ℚ)) (c : Nat) (x y : ℚ) :
    normEntry fs c (max x y) = max (normEntry fs c x) (normEntry fs c y) := by
  rcases le_total x y with h | h
  · rw [max_eq_right h, max_eq_right (normEntry_mono fs c h)]
  · rw [max_eq_left h, max_eq_left (normEntry_mono fs c h)]

/-- `normalize` preserves the number of rows. -/
theorem normalizeFeatures_length (fs : List (List ℚ)) :
    (normalizeFeatures fs).length = fs.length := by
  unfold normalizeFeatures
  split <;> simp

/-- Reading a mapped-enumerated row at a valid column applies the transform
to the stored entry. -/
theorem enum_map_getD (g : Nat → ℚ → ℚ) (row : List ℚ) (c : Nat)
    (hc : c < row.length) :
    (row.enum.map (fun e => g e.1 e.2)).getD c 0 = g c (row.getD c 0) := by
  have hlen : c < (row.enum.map (fun e => g e.1 e.2)).length := by
    simpa [List.enum_length] using hc
  rw [List.getD_eq_getElem _ _ hlen, List.getElem_map, List.getElem_enum,
    List.getD_eq_getElem _ _ hc]

/-- `normalize` preserves the feature width (row lengths are preserved, and
`num_features` is read from row 0). -/
theorem numFeatures_normalize (fs : List (List ℚ)) :
    numFeatures (normalizeFeatures fs) = numFeatures fs := by
  cases fs with
  | nil => rfl
  | cons x xs =>
    unfold normalizeFeatures numFeatures
    simp [List.enum_length]

/-- On a rectangular table, the values of a valid column after `normalize`
are the transformed values of that column. -/
theorem colVals_normalize (fs : List (List ℚ)) (c : Nat)
    (hrect : Rectangular fs) (hc : c < numFeatures fs) :
    colVals (normalizeFeatures fs) c = (colVals fs c).map (normEntry fs c) := by
  by_cases hemp : fs = []
  · subst hemp
    rfl
  · unfold normalizeFeatures
    rw [if_neg hemp]
    unfold colVals
    rw [List.map_map, List.map_map]
    apply List.map_congr_left
    intro row hrow
    have hcr : c < row.length := by
      rw [hrect row hrow]
      exact hc
    simp only [Function.comp]
    rw [enum_map_getD (fun i v => if i < numFeatures fs then normEntry fs i v else v)
      row c hcr, if_pos hc]

/-- The head entry of a valid column after `normalize` is the transformed
head entry (row 0 always has width `num_features`). -/
theorem headD_normalize (fs : List (List ℚ)) (c : Nat) (hne : fs ≠ [])
    (hc : c < numFeatures fs) :
    ((normalizeFeatures fs).headD []).getD c 0 =
      normEntry fs c ((fs.headD []).getD c 0) := by
  cases fs with
  | nil => exact absurd rfl hne
  | cons x xs =>
    unfold normalizeFeatures
    rw [if_neg hne]
    simp only [List.map_cons, List.headD_cons]
    have hcx : c < x.length := hc
    rw [enum_map_getD (fun i v => if i < numFeatures (x :: xs) then
      normEntry (x :: xs) i v else v) x c hcx, if_pos hc]

/-- The column minimum after `normalize` is the transformed column minimum. -/
theorem colMin_normalize (fs : List (List ℚ)) (c : Nat)
    (hrect : Rectangular fs) (hc : c < numFeatures fs) :
    colMin (normalizeFeatures fs) c = normEntry fs c (colMin fs c) := by
  have hne : fs ≠ [] := by
    intro h
    subst h
    simp [numFeatures] at hc
  unfold colMin
  rw [colVals_normalize fs c hrect hc, headD_normalize fs c hne hc]
  exact foldl_min_map (normEntry fs c) (normEntry_map_min fs c) _ _

/-- The column maximum after `normalize` is the transformed column maximum. -/
theorem colMax_normalize (fs : List (List ℚ)) (c : Nat)
    (hrect : Rectangular fs) (hc : c < numFeatures fs) :
    colMax (normalizeFeatures fs) c = normEntry fs c (colMax fs c) := by
  have hne : fs ≠ [] := by
    intro h
    subst h
    simp [numFeatures] at hc
  unfold colMax
  rw [colVals_normalize fs c hrect hc, headD_normalize fs c hne hc]
  exact foldl_max_map (normEntry fs c) (normEntry_map_max fs c) _ _

/-- After one pass of `normalize` on a rectangular table, the column
transform of a second pass is the identity: a non-constant column now has
minimum `0` and maximum `1`, and a constant column is still constant. -/
theorem normEntry_normalize_eq_id (fs : List (List ℚ)) (c : Nat)
    (hrect : Rectangular fs) (hc : c < numFeatures fs) (y : ℚ) :
    normEntry (normalizeFeatures fs) c y = y := by
  have hmin := colMin_normalize fs c hrect hc
  have hmax := colMax_normalize fs c hrect hc
  by_cases hr : colMax fs c - colMin fs c > 0
  · have h1 : normEntry fs c (colMin fs c) = 0 := by
      unfold normEntry
      rw [if_pos hr, sub_self, zero_div]
    have h2 : normEntry fs c (colMax fs c) = 1 := by
      unfold normEntry
      rw [if_pos hr]
      exact div_self hr.ne'
    unfold normEntry
    rw [hmax, hmin, h1, h2]
    norm_num
  · have hid : ∀ z, normEntry fs c z = z := by
      intro z
      unfold normEntry
      rw [if_neg hr]
    unfold normEntry
    rw [hmax, hmin, hid, hid, if_neg hr]

/-- A table whose column transforms are all the identity is a fixed point of
`normalize`. -/
theorem normalizeFeatures_eq_self (fs : List (List ℚ))
    (h : ∀ c, c < numFeatures fs → ∀ y, normEntry fs c y = y) :
    normalizeFeatures fs = fs := by
  unfold normalizeFeatures
  by_cases hemp : fs = []
  · rw [if_pos hemp]
  · rw [if_neg hemp]
    have hstep : ∀ row ∈ fs, row.enum.map
        (fun e => if e.1 < numFeatures fs then normEntry fs e.1 e.2 else e.2) =
          row := by
      intro row hrow
      have hinner : ∀ e ∈ row.enum,
          (if e.1 < numFeatures fs then normEntry fs e.1 e.2 else e.2) = e.2 := by
        intro e he
        by_cases hce : e.1 < numFeatures fs
        · rw [if_pos hce, h e.1 hce e.2]
        · rw [if_neg hce]
      rw [List.map_congr_left hinner]
      exact List.enum_map_snd row
    exact (List.map_congr_left hstep).trans (by simp)

/-- On a rectangular table, `normalize` is idempotent on the features. -/
theorem normalizeFeatures_idem (fs : List (List ℚ)) (hrect : Rectangular fs) :
    normalizeFeatures (normalizeFeatures fs) = normalizeFeatures fs := by
  apply normalizeFeatures_eq_self
  intro c hc y
  exact normEntry_normalize_eq_id fs c hrect
    (lt_of_lt_of_eq hc (numFeatures_normalize fs)) y

/-- Entry access into the normalized feature matrix. -/
theorem normalizeFeatures_entry (fs : List (List ℚ)) (r c : Nat)
    (hr : r < fs.length) (hc : c < (fs.getD r []).length) :
    ((normalizeFeatures fs).getD r []).getD c 0 =
      if c < numFeatures fs then normEntry fs c ((fs.getD r []).getD c 0)
      else (fs.getD r []).getD c 0 := by
  have hemp : fs ≠ [] := by
    intro h
    subst h
    simp at hr
  unfold normalizeFeatures
  rw [if_neg hemp]
  have hr' : r < (fs.map (fun row => row.enum.map (fun e =>
      if e.1 < numFeatures fs then normEntry fs e.1 e.2 else e.2))).length := by
    simpa using hr
  rw [List.getD_eq_getElem _ _ hr', List.getElem_map]
  rw [List.getD_eq_getElem fs [] hr] at hc ⊢
  exact enum_map_getD
    (fun i v => if i < numFeatures fs then normEntry fs i v else v) (fs[r]) c hc

/-- C7: on a rectangular table, `normalize` leaves the labels untouched,
preserves the number of rows, is a no-op on an empty table, and rewrites each
entry of each column `c` to `(x - min_c) / (max_c - min_c)` (a value in
`[0, 1]`) when `max_c > min_c`, leaving the entry unchanged otherwise. -/
theorem C7_normalize_columns (d : Dataset) (hrect : Rectangular d.features) :
    (normalize d).labels = d.labels ∧
    (normalize d).features.length = d.features.length ∧
    (d.features = [] → (normalize d).features = d.features) ∧
    ∀ r c, r < d.features.length → c < numFeatures d.features →
      (((normalize d).features.getD r []).getD c 0 =
          if colMin d.features c < colMax d.features c then
            ((d.features.getD r []).getD c 0 - colMin d.features c) /
              (colMax d.features c - colMin d.features c)
          else (d.features.getD r []).getD c 0) ∧
      (colMin d.features c < colMax d.features c →
        0 ≤ ((normalize d).features.getD r []).getD c 0 ∧
          ((normalize d).features.getD r []).getD c 0 ≤ 1) := by
  refine ⟨rfl, normalizeFeatures_length d.features, ?_, ?_⟩
  · intro h
    show normalizeFeatures d.features = d.features
    rw [h]
    rfl
  · intro r c hr hc
    have hrowmem : d.features.getD r [] ∈ d.features := by
      rw [List.getD_eq_getElem d.features [] hr]
      exact List.getElem_mem hr
    have hcr : c < (d.features.getD r []).length := by
      rw [hrect _ hrowmem]
      exact hc
    have hentry := normalizeFeatures_entry d.features r c hr hcr
    rw [if_pos hc] at hentry
    have hform : ((normalize d).features.getD r []).getD c 0 =
        if colMin d.features c < colMax d.features c then
          ((d.features.getD r []).getD c 0 - colMin d.features c) /
            (colMax d.features c - colMin d.features c)
        else (d.features.getD r []).getD c 0 := by
      show ((normalizeFeatures d.features).getD r []).getD c 0 = _
      rw [hentry]
      unfold normEntry
      rcases lt_or_le (colMin d.features c) (colMax d.features c) with hlt | hle
      · rw [if_pos (sub_pos.mpr hlt), if_pos hlt]
      · rw [if_neg (by simpa using sub_nonpos.mpr hle),
          if_neg (not_lt.mpr hle)]
    refine ⟨hform, ?_⟩
    intro hlt
    have hx : (d.features.getD r []).getD c 0 ∈ colVals d.features c :=
      List.mem_map_of_mem _ hrowmem
    have hmn : colMin d.features c ≤ (d.features.getD r []).getD c 0 :=
      foldl_min_le_mem _ _ _ hx
    have hmx : (d.features.getD r []).getD c 0 ≤ colMax d.features c :=
      mem_le_foldl_max _ _ _ hx
    rw [hform, if_pos hlt]
    constructor
    · exact div_nonneg (sub_nonneg.mpr hmn) (sub_pos.mpr hlt).le
    · rw [div_le_one (sub_pos.mpr hlt)]
      exact sub_le_sub_right hmx _

/-- Witness for C7 on a concrete rectangular table. -/
theorem C7_normalize_columns_witness :
    Rectangular ([[0, 5], [2, 5]] : List (List ℚ)) ∧
      (normalize ⟨[[0, 5], [2, 5]], [0, 1]⟩).labels = [0, 1] :=
  ⟨by decide, (C7_normalize_columns ⟨[[0, 5], [2, 5]], [0, 1]⟩ (by decide)).1⟩

/-- C8: on a rectangular table, applying `normalize` twice yields exactly the
table produced by applying it once (the normalized table is a fixed point). -/
theorem C8_normalize_idempotent (d : Dataset) (hrect : Rectangular d.features) :
    normalize (normalize d) = normalize d := by
  show Dataset.mk (normalizeFeatures (normalizeFeatures d.features)) d.labels =
    Dataset.mk (normalizeFeatures d.features) d.labels
  rw [normalizeFeatures_idem d.features hrect]

/-- Witness for C8 on a concrete rectangular table. -/
theorem C8_normalize_idempotent_witness :
    Rectangular ([[0, 5], [2, 5]] : List (List ℚ)) ∧
      normalize (normalize ⟨[[0, 5], [2, 5]], [0, 1]⟩) =
        normalize ⟨[[0, 5], [2, 5]], [0, 1]⟩ :=
  ⟨by decide, C8_normalize_idempotent ⟨[[0, 5], [2, 5]], [0, 1]⟩ (by decide)⟩

end mlcpp
